import Mathlib

/-!
# A shallow embedding of the Self-Avoiding-Walk simulator (Models.py)

The source program keeps an N by N numpy grid of cells (0 = unvisited,
1..4 = the direction code written into the cell the walker departs from),
two coordinate lists x and y forming the trajectory, a branching-factor
log k, and a step counter.  Randomness comes from two kinds of numpy
draws: `randint(0, n)` for move selection (consumed only when more than
one move is legal) and `uniform()` for the early-termination test of the
`SAWEarly` subclass.  We model the grid as a total function on integer
pairs, the selection draws as a stream `sel : Nat → Nat` (the draw for a
list of length n is `sel c % n`), the uniform draws as a stream
`term : Nat → Rat`, and a Python exception as the `crash` outcome.  The
possibly-diverging `while` loop is run on fuel; exhausting the fuel is the
separate outcome `fuelOut`, so that termination is a provable statement.
-/

namespace SAWModel

/-- The lattice: cell values indexed by (row, column) integer pairs.
The program only ever writes inside the N by N square, but numpy lets
negative indices in [-N, 0) wrap around, which the embedding reproduces. -/
abbrev Grid := ℤ → ℤ → ℕ

/-- `_grid`: the fresh all-unvisited lattice (np.zeros((N, N))). -/
def zeroGrid : Grid := fun _ _ => 0

/-- A numpy read `matrix[a, b]` on an N by N array: raises (none) outside
[-N, N) on either axis, otherwise wraps negative indices via emod. -/
def readCell (N : ℕ) (g : Grid) (a b : ℤ) : Option ℕ :=
  if a < (N : ℤ) ∧ b < (N : ℤ) ∧ -(N : ℤ) ≤ a ∧ -(N : ℤ) ≤ b then
    some (g (a % (N : ℤ)) (b % (N : ℤ)))
  else none

/-- A numpy write `matrix[i, j] = v` on an N by N array (negative indices
in range wrap via emod, as in the numpy assignment of the source). -/
def setCell (N : ℕ) (g : Grid) (i j : ℤ) (v : ℕ) : Grid :=
  fun a b => if a = i % (N : ℤ) ∧ b = j % (N : ℤ) then v else g a b

/-- The fixed direction/target table built by `_check_walks`:
1 = left (j-1), 2 = right (j+1), 3 = up (i-1), 4 = down (i+1),
in the dictionary insertion order of the source. -/
def dirTargets (i j : ℤ) : List (ℕ × ℤ × ℤ) :=
  [(1, (i, j - 1)), (2, (i, j + 1)), (3, (i - 1, j)), (4, (i + 1, j))]

/-- The body of the try/except test in `_check_walks`: a direction is
impossible when the lattice read raises, or the read value is nonzero,
or either target coordinate is negative. -/
def isImpossible (N : ℕ) (g : Grid) (t : ℤ × ℤ) : Bool :=
  match readCell N g t.1 t.2 with
  | none => true
  | some v => decide (v ≠ 0 ∨ t.1 < 0 ∨ t.2 < 0)

/-- `_check_walks`: the parallel lists of legal direction codes and their
target positions, in the fixed order 1, 2, 3, 4. -/
def check_walks (N : ℕ) (g : Grid) (i j : ℤ) : List ℕ × List (ℤ × ℤ) :=
  let poss := (dirTargets i j).filter fun kt => ! isImpossible N g kt.2
  (poss.map Prod.fst, poss.map Prod.snd)

/-- `_choose_uniformly` plus its randomness bookkeeping: on a list of
length n it returns `x[index]` where index is `sel c % n` when n > 1
(consuming one draw) and 0 otherwise (consuming none); `none` models the
IndexError raised on the empty list.  The second component is the new
stream position. -/
def chooseStep (sel : ℕ → ℕ) (c : ℕ) (x : List ℕ) : Option ℕ × ℕ :=
  if x.length > 1 then (x.get? (sel c % x.length), c + 1)
  else (x.get? 0, c)

/-- `_walk`: mark the departure cell with the direction code and return the
new position; `none` models both the explicit `i == len(matrix)` error
branch and the implicit `None` returned for an unknown direction code. -/
def walkFn (N : ℕ) (g : Grid) (i j : ℤ) (dir : ℕ) : Option (Grid × ℤ × ℤ) :=
  if i = (N : ℤ) ∨ j = (N : ℤ) then none
  else if dir = 1 then some (setCell N g i j dir, i, j - 1)
  else if dir = 2 then some (setCell N g i j dir, i, j + 1)
  else if dir = 3 then some (setCell N g i j dir, i - 1, j)
  else if dir = 4 then some (setCell N g i j dir, i + 1, j)
  else none

/-- The mutable state of a walk object: the lattice, the two trajectory
coordinate lists, the branching-factor log, the step counter, and the
current position of the walker. -/
structure EvoState where
  grid : Grid
  x : List ℤ
  y : List ℤ
  k : List ℕ
  n_steps : ℕ
  i : ℤ
  j : ℤ

/-- Outcome of running an evolution: ran out of fuel, raised a Python
exception, or finished with a final state. -/
inductive RunResult where
  | fuelOut : RunResult
  | crash : RunResult
  | done (st : EvoState) : RunResult

/-- The grid-free observable part of a finished run, used to state
concrete evaluations decidably. -/
structure WalkOut where
  x : List ℤ
  y : List ℤ
  k : List ℕ
  n_steps : ℕ
  deriving DecidableEq, Repr

/-- Project a run outcome to its grid-free observables. -/
def RunResult.out? : RunResult → Option WalkOut
  | .done st => some ⟨st.x, st.y, st.k, st.n_steps⟩
  | _ => none

/-- Read one lattice cell of a finished run. -/
def RunResult.gridAt? : RunResult → ℤ → ℤ → Option ℕ
  | .done st, a, b => some (st.grid a b)
  | _, _, _ => none

/-- A predicate on the final state, holding vacuously for a run that did
not finish. -/
def goodRun (P : EvoState → Prop) : RunResult → Prop
  | .done st => P st
  | _ => True

/-- The `while not colide` loop of `SAW._evolution`, on fuel.  Each
iteration enumerates moves, logs the branching factor, pops the log and
stops on zero legal moves, and otherwise chooses a move, applies it and
appends the new position. -/
def loopSAW (N : ℕ) (sel : ℕ → ℕ) : ℕ → ℕ → EvoState → RunResult
  | 0, _, _ => .fuelOut
  | fuel + 1, c, st =>
    let pw := (check_walks N st.grid st.i st.j).1
    let k1 := st.k ++ [pw.length]
    if pw.length = 0 then
      .done { st with k := k1.dropLast }
    else
      let dc := chooseStep sel c pw
      match dc.1.bind (walkFn N st.grid st.i st.j) with
      | none => .crash
      | some gij =>
        loopSAW N sel fuel dc.2
          { grid := gij.1, x := st.x ++ [gij.2.1], y := st.y ++ [gij.2.2],
            k := k1, n_steps := st.n_steps + 1, i := gij.2.1, j := gij.2.2 }

/-- `SAW.__init__` plus `SAW._evolution`: the unguarded first step (no
zero-moves check before choosing), then the loop. -/
def SAW_evolution (N : ℕ) (x0 y0 : ℤ) (sel : ℕ → ℕ) (fuel : ℕ) : RunResult :=
  let g := zeroGrid
  let pw := (check_walks N g x0 y0).1
  let k1 : List ℕ := [pw.length]
  let dc := chooseStep sel 0 pw
  match dc.1.bind (walkFn N g x0 y0) with
  | none => .crash
  | some gij =>
    loopSAW N sel fuel dc.2
      { grid := gij.1, x := [x0, gij.2.1], y := [y0, gij.2.2],
        k := k1, n_steps := 1, i := gij.2.1, j := gij.2.2 }

/-- The `while not colide` loop of `SAWEarly._evolution`, on fuel.  Each
iteration consumes one uniform draw `term tc`; when it is below the
termination probability the loop stops, popping the log entry exactly
when it is zero; otherwise the body is that of the base loop. -/
def loopSAWEarly (N : ℕ) (p : ℚ) (term : ℕ → ℚ) (sel : ℕ → ℕ) :
    ℕ → ℕ → ℕ → EvoState → RunResult
  | 0, _, _, _ => .fuelOut
  | fuel + 1, c, tc, st =>
    let pw := (check_walks N st.grid st.i st.j).1
    let k1 := st.k ++ [pw.length]
    if term tc < p then
      if pw.length = 0 then .done { st with k := k1.dropLast }
      else .done { st with k := k1 }
    else if pw.length = 0 then
      .done { st with k := k1.dropLast }
    else
      let dc := chooseStep sel c pw
      match dc.1.bind (walkFn N st.grid st.i st.j) with
      | none => .crash
      | some gij =>
        loopSAWEarly N p term sel fuel dc.2 (tc + 1)
          { grid := gij.1, x := st.x ++ [gij.2.1], y := st.y ++ [gij.2.2],
            k := k1, n_steps := st.n_steps + 1, i := gij.2.1, j := gij.2.2 }

/-- `SAWEarly.__init__` plus `SAWEarly._evolution`: the first uniform draw
sets `colide` but the first step is still chosen and applied; the loop is
then entered only when the draw did not fire. -/
def SAWEarly_evolution (N : ℕ) (x0 y0 : ℤ) (p : ℚ) (term : ℕ → ℚ)
    (sel : ℕ → ℕ) (fuel : ℕ) : RunResult :=
  let g := zeroGrid
  let pw := (check_walks N g x0 y0).1
  let k1 : List ℕ := [pw.length]
  let colide0 := term 0 < p
  let dc := chooseStep sel 0 pw
  match dc.1.bind (walkFn N g x0 y0) with
  | none => .crash
  | some gij =>
    let st1 : EvoState :=
      { grid := gij.1, x := [x0, gij.2.1], y := [y0, gij.2.2],
        k := k1, n_steps := 1, i := gij.2.1, j := gij.2.2 }
    if colide0 then .done st1
    else loopSAWEarly N p term sel fuel dc.2 1 st1

/-- numpy `cumprod` of a list of rationals. -/
def cumprod (l : List ℚ) : List ℚ := (l.scanl (· * ·) 1).tail

/-- `SAW.trial_probability`: the last entry of the cumulative product of
the reciprocals of the log; `none` models the IndexError of `g[-1]` on an
empty log. -/
def trial_probability (k : List ℕ) : Option ℚ :=
  (cumprod (k.map fun n : ℕ => 1 / (n : ℚ))).getLast?

/-! ## Characterization of move enumeration -/

/-- Both coordinates of a position lie in [0, N). -/
def inB (N : ℕ) (t : ℤ × ℤ) : Prop :=
  0 ≤ t.1 ∧ t.1 < (N : ℤ) ∧ 0 ≤ t.2 ∧ t.2 < (N : ℤ)

instance (N : ℕ) (t : ℤ × ℤ) : Decidable (inB N t) := by
  unfold inB; infer_instance

/-- Legality of a move target as the spec words it (section 4.2): both
target coordinates in [0, N) and the target cell unvisited. -/
def legal (N : ℕ) (g : Grid) (t : ℤ × ℤ) : Prop := inB N t ∧ g t.1 t.2 = 0

instance (N : ℕ) (g : Grid) (t : ℤ × ℤ) : Decidable (legal N g t) := by
  unfold legal; infer_instance

/-- Move enumeration as the spec words it: keep, in the fixed order
left, right, up, down, exactly the directions whose target is in bounds
on both axes and unvisited. -/
def check_walks_spec (N : ℕ) (g : Grid) (i j : ℤ) : List ℕ × List (ℤ × ℤ) :=
  let poss := (dirTargets i j).filter fun kt => decide (legal N g kt.2)
  (poss.map Prod.fst, poss.map Prod.snd)

theorem isImpossible_eq_false_iff (N : ℕ) (g : Grid) (t : ℤ × ℤ) :
    isImpossible N g t = false ↔ legal N g t := by
  rcases t with ⟨a, b⟩
  by_cases h : a < (N : ℤ) ∧ b < (N : ℤ) ∧ -(N : ℤ) ≤ a ∧ -(N : ℤ) ≤ b
  · simp only [isImpossible, readCell, if_pos h]
    constructor
    · intro hf
      have hf2 : ¬ (g (a % (N : ℤ)) (b % (N : ℤ)) ≠ 0 ∨ a < 0 ∨ b < 0) := by
        simpa using hf
      push_neg at hf2
      obtain ⟨hv, ha, hb⟩ := hf2
      have ea : a % (N : ℤ) = a := Int.emod_eq_of_lt ha h.1
      have eb : b % (N : ℤ) = b := Int.emod_eq_of_lt hb h.2.1
      exact ⟨⟨ha, h.1, hb, h.2.1⟩, by rwa [ea, eb] at hv⟩
    · rintro ⟨⟨ha, ha2, hb, hb2⟩, hv⟩
      have ea : a % (N : ℤ) = a := Int.emod_eq_of_lt ha ha2
      have eb : b % (N : ℤ) = b := Int.emod_eq_of_lt hb hb2
      simp [ea, eb, hv, not_lt.mpr ha, not_lt.mpr hb]
  · simp only [isImpossible, readCell, if_neg h]
    constructor
    · intro hf; simp at hf
    · rintro ⟨⟨ha, ha2, hb, hb2⟩, _⟩
      exact absurd ⟨ha2, hb2, by omega, by omega⟩ h

theorem check_walks_eq_spec (N : ℕ) (g : Grid) (i j : ℤ) :
    check_walks N g i j = check_walks_spec N g i j := by
  unfold check_walks check_walks_spec
  have h : ∀ kt ∈ dirTargets i j,
      (! isImpossible N g kt.2) = decide (legal N g kt.2) := by
    intro kt _
    by_cases hl : legal N g kt.2
    · have hf := (isImpossible_eq_false_iff N g kt.2).mpr hl
      simp [hf, hl]
    · have hb : isImpossible N g kt.2 = true := by
        cases hib : isImpossible N g kt.2
        · exact absurd ((isImpossible_eq_false_iff N g kt.2).mp hib) hl
        · rfl
      simp [hb, hl]
  rw [List.filter_congr h]

/-- The position offset of a direction code as applied by `_walk`. -/
def applyDir (d : ℕ) (q : ℤ × ℤ) : ℤ × ℤ :=
  if d = 1 then (q.1, q.2 - 1)
  else if d = 2 then (q.1, q.2 + 1)
  else if d = 3 then (q.1 - 1, q.2)
  else (q.1 + 1, q.2)

theorem mem_check_walks (N : ℕ) (g : Grid) (i j : ℤ) (d : ℕ)
    (h : d ∈ (check_walks N g i j).1) :
    (d = 1 ∨ d = 2 ∨ d = 3 ∨ d = 4) ∧ legal N g (applyDir d (i, j)) := by
  rw [check_walks_eq_spec] at h
  unfold check_walks_spec at h
  simp only [List.mem_map, List.mem_filter] at h
  obtain ⟨kt, ⟨hmem, hleg⟩, hfst⟩ := h
  have hleg2 : legal N g kt.2 := of_decide_eq_true hleg
  subst hfst
  unfold dirTargets at hmem
  simp only [List.mem_cons, List.not_mem_nil, or_false] at hmem
  rcases hmem with h | h | h | h
  · subst h; exact ⟨Or.inl rfl, by simpa [applyDir] using hleg2⟩
  · subst h; exact ⟨Or.inr (Or.inl rfl), by simpa [applyDir] using hleg2⟩
  · subst h; exact ⟨Or.inr (Or.inr (Or.inl rfl)), by simpa [applyDir] using hleg2⟩
  · subst h; exact ⟨Or.inr (Or.inr (Or.inr rfl)), by simpa [applyDir] using hleg2⟩

theorem chooseStep_mem {sel : ℕ → ℕ} {c : ℕ} {x : List ℕ} {d : ℕ}
    (h : (chooseStep sel c x).1 = some d) : d ∈ x := by
  unfold chooseStep at h
  split at h <;> exact List.get?_mem h

/-! ## The walk invariant -/

/-- The trajectory of a state as a single list of positions. -/
def posList (st : EvoState) : List (ℤ × ℤ) := st.x.zip st.y

/-- One chain step of the trajectory, as recorded in the lattice: the
earlier cell holds the direction code of the move that left it. -/
def stepRel (g : Grid) (q r : ℤ × ℤ) : Prop :=
  ∃ d, (d = 1 ∨ d = 2 ∨ d = 3 ∨ d = 4) ∧ r = applyDir d q ∧ g q.1 q.2 = d

/-- The reachable-state invariant of both evolution loops. -/
structure Inv (N : ℕ) (st : EvoState) : Prop where
  len_x : st.x.length = st.n_steps + 1
  len_y : st.y.length = st.x.length
  cur : (posList st).getLast? = some (st.i, st.j)
  bounds : ∀ q ∈ posList st, inB N q
  nodup : (posList st).Nodup
  gridSpec : ∀ a b, st.grid a b ≠ 0 ↔ (a, b) ∈ (posList st).dropLast
  chain : (posList st).Chain' (stepRel st.grid)
  kpos : ∀ e ∈ st.k, 0 < e

theorem zip_concat {x y : List ℤ} (h : x.length = y.length) (a b : ℤ) :
    (x ++ [a]).zip (y ++ [b]) = x.zip y ++ [(a, b)] :=
  List.zip_append h

theorem posList_length (st : EvoState) (h : st.y.length = st.x.length) :
    (posList st).length = st.x.length := by
  simp [posList, h]

/-- The in-bounds square as a finset, for the cardinality bound. -/
def box (N : ℕ) : Finset (ℤ × ℤ) := Finset.Ico (0 : ℤ) N ×ˢ Finset.Ico (0 : ℤ) N

theorem box_card (N : ℕ) : (box N).card = N * N := by
  simp [box, Int.card_Ico]

theorem mem_box_iff (N : ℕ) (q : ℤ × ℤ) : q ∈ box N ↔ inB N q := by
  rcases q with ⟨a, b⟩
  simp [box, inB, Finset.mem_Ico, and_assoc]

theorem Inv.steps_bound {N : ℕ} {st : EvoState} (hInv : Inv N st) :
    st.n_steps + 1 ≤ N * N := by
  have hlen : (posList st).length = st.n_steps + 1 := by
    rw [posList_length st hInv.len_y, hInv.len_x]
  have hcard : (posList st).toFinset.card = (posList st).length :=
    List.toFinset_card_of_nodup hInv.nodup
  have hsub : (posList st).toFinset ⊆ box N := by
    intro q hq
    rw [List.mem_toFinset] at hq
    exact (mem_box_iff N q).mpr (hInv.bounds q hq)
  calc st.n_steps + 1 = (posList st).toFinset.card := by rw [hcard, hlen]
    _ ≤ (box N).card := Finset.card_le_card hsub
    _ = N * N := box_card N

theorem Inv.cur_inB {N : ℕ} {st : EvoState} (hInv : Inv N st) :
    inB N (st.i, st.j) :=
  hInv.bounds _ (List.mem_of_getLast?_eq_some hInv.cur)

theorem Inv.posList_ne_nil {N : ℕ} {st : EvoState} (hInv : Inv N st) :
    posList st ≠ [] := by
  intro hnil
  have h := hInv.cur
  rw [hnil] at h
  simp at h

theorem Inv.posList_split {N : ℕ} {st : EvoState} (hInv : Inv N st) :
    posList st = (posList st).dropLast ++ [(st.i, st.j)] := by
  have hne := hInv.posList_ne_nil
  have h1 : (posList st).getLast? = some ((posList st).getLast hne) :=
    List.getLast?_eq_getLast_of_ne_nil hne
  have h2 : (posList st).getLast hne = (st.i, st.j) := by
    have := hInv.cur
    rw [h1] at this
    exact Option.some.inj this
  rw [← h2]
  exact (List.dropLast_append_getLast hne).symm

theorem Inv.cur_not_mem_dropLast {N : ℕ} {st : EvoState} (hInv : Inv N st) :
    (st.i, st.j) ∉ (posList st).dropLast := by
  intro hmem
  have hnd := hInv.nodup
  rw [hInv.posList_split] at hnd
  rcases List.nodup_append.mp hnd with ⟨-, -, hdisj⟩
  exact hdisj hmem (List.mem_singleton.mpr rfl)

theorem Inv.cur_cell_zero {N : ℕ} {st : EvoState} (hInv : Inv N st) :
    st.grid st.i st.j = 0 := by
  by_contra hnz
  exact hInv.cur_not_mem_dropLast ((hInv.gridSpec st.i st.j).mp hnz)

theorem setCell_inB (N : ℕ) (g : Grid) (i j : ℤ) (v : ℕ)
    (hi : 0 ≤ i) (hi2 : i < (N : ℤ)) (hj : 0 ≤ j) (hj2 : j < (N : ℤ))
    (a b : ℤ) :
    setCell N g i j v a b = if a = i ∧ b = j then v else g a b := by
  unfold setCell
  rw [Int.emod_eq_of_lt hi hi2, Int.emod_eq_of_lt hj hj2]

theorem applyDir_ne (d : ℕ) (q : ℤ × ℤ) : applyDir d q ≠ q := by
  rcases q with ⟨a, b⟩
  unfold applyDir
  split
  · simp only [ne_eq, Prod.mk.injEq, not_and]; intro _ h; omega
  · split
    · simp only [ne_eq, Prod.mk.injEq, not_and]; intro _ h; omega
    · split
      · simp only [ne_eq, Prod.mk.injEq, not_and]
        intro h; omega
      · simp only [ne_eq, Prod.mk.injEq, not_and]
        intro h; omega

theorem dir_ne_zero {d : ℕ} (h : d = 1 ∨ d = 2 ∨ d = 3 ∨ d = 4) : d ≠ 0 := by
  rcases h with h | h | h | h <;> omega

/-- One accepted step of either loop preserves the invariant: the chosen
direction is applied by `_walk`, marking the departure cell, and the new
state (with the new position appended and the positive branching factor
logged) is again invariant. -/
theorem step_preserve (N : ℕ) (st : EvoState) (hInv : Inv N st) (dir : ℕ)
    (hmem : dir ∈ (check_walks N st.grid st.i st.j).1) :
    walkFn N st.grid st.i st.j dir
      = some (setCell N st.grid st.i st.j dir,
              (applyDir dir (st.i, st.j)).1, (applyDir dir (st.i, st.j)).2) ∧
    Inv N { grid := setCell N st.grid st.i st.j dir,
            x := st.x ++ [(applyDir dir (st.i, st.j)).1],
            y := st.y ++ [(applyDir dir (st.i, st.j)).2],
            k := st.k ++ [(check_walks N st.grid st.i st.j).1.length],
            n_steps := st.n_steps + 1,
            i := (applyDir dir (st.i, st.j)).1,
            j := (applyDir dir (st.i, st.j)).2 } := by
  obtain ⟨hd4, hleg⟩ := mem_check_walks N st.grid st.i st.j dir hmem
  obtain ⟨hiB, hiN, hjB, hjN⟩ := hInv.cur_inB
  have hne : ¬ (st.i = (N : ℤ) ∨ st.j = (N : ℤ)) := by
    push_neg
    constructor <;> omega
  have hwalk : walkFn N st.grid st.i st.j dir
      = some (setCell N st.grid st.i st.j dir,
              (applyDir dir (st.i, st.j)).1, (applyDir dir (st.i, st.j)).2) := by
    rcases hd4 with h | h | h | h <;> subst h <;> simp [walkFn, hne, applyDir]
  have hset : ∀ a b, setCell N st.grid st.i st.j dir a b
      = if a = st.i ∧ b = st.j then dir else st.grid a b :=
    setCell_inB N st.grid st.i st.j dir hiB hiN hjB hjN
  have hq0 : st.grid (applyDir dir (st.i, st.j)).1 (applyDir dir (st.i, st.j)).2 = 0 :=
    hleg.2
  have hq_not_drop : applyDir dir (st.i, st.j) ∉ (posList st).dropLast := by
    intro hm
    have : st.grid (applyDir dir (st.i, st.j)).1 (applyDir dir (st.i, st.j)).2 ≠ 0 :=
      (hInv.gridSpec _ _).mpr hm
    exact this hq0
  have hq_ne_cur : applyDir dir (st.i, st.j) ≠ (st.i, st.j) := applyDir_ne dir _
  have hq_not_mem : applyDir dir (st.i, st.j) ∉ posList st := by
    rw [hInv.posList_split]
    intro hm
    rcases List.mem_append.mp hm with hm1 | hm2
    · exact hq_not_drop hm1
    · exact hq_ne_cur (List.mem_singleton.mp hm2)
  have hpl : (st.x ++ [(applyDir dir (st.i, st.j)).1]).zip
        (st.y ++ [(applyDir dir (st.i, st.j)).2])
      = posList st ++ [applyDir dir (st.i, st.j)] := by
    rw [zip_concat hInv.len_y.symm]
    rfl
  have hcur_zero : st.grid st.i st.j = 0 := hInv.cur_cell_zero
  have hpwpos : 0 < (check_walks N st.grid st.i st.j).1.length :=
    List.length_pos.mpr (List.ne_nil_of_mem hmem)
  refine ⟨hwalk, ?_, ?_, ?_, ?_, ?_, ?_, ?_, ?_⟩
  · simp [hInv.len_x]
  · simp [hInv.len_y, hInv.len_x]
  · show ((st.x ++ _).zip (st.y ++ _)).getLast? = _
    rw [hpl, List.getLast?_concat]
  · show ∀ q ∈ (st.x ++ _).zip (st.y ++ _), inB N q
    rw [hpl]
    intro r hr
    rcases List.mem_append.mp hr with hr1 | hr2
    · exact hInv.bounds r hr1
    · rw [List.mem_singleton.mp hr2]
      exact hleg.1
  · show ((st.x ++ _).zip (st.y ++ _)).Nodup
    rw [hpl]
    refine List.nodup_append.mpr ⟨hInv.nodup, List.nodup_singleton _, ?_⟩
    intro r hr hrq
    rw [List.mem_singleton.mp hrq] at hr
    exact hq_not_mem hr
  · show ∀ a b, setCell N st.grid st.i st.j dir a b ≠ 0 ↔
      (a, b) ∈ ((st.x ++ _).zip (st.y ++ _)).dropLast
    intro a b
    rw [hpl, List.dropLast_concat, hset a b]
    by_cases hab : a = st.i ∧ b = st.j
    · rw [if_pos hab]
      constructor
      · intro _
        rw [hab.1, hab.2, hInv.posList_split]
        exact List.mem_append.mpr (Or.inr (List.mem_singleton.mpr rfl))
      · intro _
        exact dir_ne_zero hd4
    · rw [if_neg hab]
      constructor
      · intro hnz
        rw [hInv.posList_split]
        exact List.mem_append.mpr (Or.inl ((hInv.gridSpec a b).mp hnz))
      · intro hm
        apply (hInv.gridSpec a b).mpr
        rw [hInv.posList_split] at hm
        rcases List.mem_append.mp hm with hm1 | hm2
        · exact hm1
        · exfalso
          apply hab
          have heq := List.mem_singleton.mp hm2
          exact ⟨congrArg Prod.fst heq, congrArg Prod.snd heq⟩
  · show ((st.x ++ _).zip (st.y ++ _)).Chain' (stepRel (setCell N st.grid st.i st.j dir))
    rw [hpl]
    rw [List.chain'_append]
    refine ⟨?_, List.chain'_singleton _, ?_⟩
    · refine hInv.chain.imp ?_
      intro r s hrs
      obtain ⟨d, hd, hs, hgr⟩ := hrs
      refine ⟨d, hd, hs, ?_⟩
      have hr_ne : ¬ (r.1 = st.i ∧ r.2 = st.j) := by
        intro hr_eq
        rw [hr_eq.1, hr_eq.2] at hgr
        rw [hcur_zero] at hgr
        exact dir_ne_zero hd hgr.symm
      rw [hset r.1 r.2, if_neg hr_ne]
      exact hgr
    · intro r hr s hs
      have hr_eq : r = (st.i, st.j) := by
        rw [hInv.cur] at hr
        exact (Option.mem_some_iff.mp hr).symm
      have hs_eq : s = applyDir dir (st.i, st.j) := by
        simp at hs
        exact hs.symm
      rw [hr_eq, hs_eq]
      refine ⟨dir, hd4, rfl, ?_⟩
      rw [hset st.i st.j, if_pos ⟨rfl, rfl⟩]
  · intro e he
    rcases List.mem_append.mp he with he1 | he2
    · exact hInv.kpos e he1
    · rw [List.mem_singleton.mp he2]
      exact hpwpos

theorem inv_set_k {N : ℕ} {st : EvoState} (hInv : Inv N st) (k2 : List ℕ)
    (hk : ∀ e ∈ k2, 0 < e) : Inv N { st with k := k2 } :=
  ⟨hInv.len_x, hInv.len_y, hInv.cur, hInv.bounds, hInv.nodup,
    hInv.gridSpec, hInv.chain, hk⟩

/-- Unpacking a successful choose-then-walk composite: the chosen direction
is a member of the candidate list and the produced triple is the marked
grid with the offset position, with the state invariant preserved. -/
theorem bind_walk_some {N : ℕ} {st : EvoState} (hInv : Inv N st)
    {sel : ℕ → ℕ} {c : ℕ} {gij : Grid × ℤ × ℤ}
    (hw : ((chooseStep sel c (check_walks N st.grid st.i st.j).1).1.bind
      (walkFn N st.grid st.i st.j)) = some gij) :
    Inv N { grid := gij.1, x := st.x ++ [gij.2.1], y := st.y ++ [gij.2.2],
            k := st.k ++ [(check_walks N st.grid st.i st.j).1.length],
            n_steps := st.n_steps + 1, i := gij.2.1, j := gij.2.2 } := by
  rcases Option.bind_eq_some.mp hw with ⟨dir, hcs, hwalk⟩
  have hmem := chooseStep_mem hcs
  obtain ⟨hwalk2, hInv2⟩ := step_preserve N st hInv dir hmem
  rw [hwalk] at hwalk2
  have hgij : gij = (setCell N st.grid st.i st.j dir,
      (applyDir dir (st.i, st.j)).1, (applyDir dir (st.i, st.j)).2) :=
    Option.some.inj hwalk2
  subst hgij
  exact hInv2

theorem loopSAW_inv (N : ℕ) (sel : ℕ → ℕ) (fuel : ℕ) :
    ∀ (c : ℕ) (st : EvoState), Inv N st →
      goodRun (Inv N) (loopSAW N sel fuel c st) := by
  induction fuel with
  | zero =>
    intro c st _
    simp only [loopSAW, goodRun]
  | succ fuel ih =>
    intro c st hInv
    simp only [loopSAW]
    by_cases hz : (check_walks N st.grid st.i st.j).1.length = 0
    · rw [if_pos hz]
      show Inv N _
      rw [List.dropLast_concat]
      exact inv_set_k hInv st.k hInv.kpos
    · rw [if_neg hz]
      rcases hw : ((chooseStep sel c (check_walks N st.grid st.i st.j).1).1.bind
          (walkFn N st.grid st.i st.j)) with _ | gij
      · exact trivial
      · exact ih _ _ (bind_walk_some hInv hw)

theorem loopSAW_no_fuelOut (N : ℕ) (sel : ℕ → ℕ) (fuel : ℕ) :
    ∀ (c : ℕ) (st : EvoState), Inv N st →
      N * N + 1 ≤ fuel + st.n_steps →
      loopSAW N sel fuel c st ≠ .fuelOut := by
  induction fuel with
  | zero =>
    intro c st hInv hf
    have := hInv.steps_bound
    omega
  | succ fuel ih =>
    intro c st hInv hf
    simp only [loopSAW]
    by_cases hz : (check_walks N st.grid st.i st.j).1.length = 0
    · rw [if_pos hz]
      intro h
      exact RunResult.noConfusion h
    · rw [if_neg hz]
      rcases hw : ((chooseStep sel c (check_walks N st.grid st.i st.j).1).1.bind
          (walkFn N st.grid st.i st.j)) with _ | gij
      · intro h
        exact RunResult.noConfusion h
      · exact ih _ _ (bind_walk_some hInv hw) (by simp only []; omega)

theorem loopSAWEarly_inv (N : ℕ) (p : ℚ) (term : ℕ → ℚ) (sel : ℕ → ℕ)
    (fuel : ℕ) :
    ∀ (c tc : ℕ) (st : EvoState), Inv N st →
      goodRun (Inv N) (loopSAWEarly N p term sel fuel c tc st) := by
  induction fuel with
  | zero =>
    intro c tc st _
    simp only [loopSAWEarly, goodRun]
  | succ fuel ih =>
    intro c tc st hInv
    simp only [loopSAWEarly]
    by_cases ht : term tc < p
    · rw [if_pos ht]
      by_cases hz : (check_walks N st.grid st.i st.j).1.length = 0
      · rw [if_pos hz]
        show Inv N _
        rw [List.dropLast_concat]
        exact inv_set_k hInv st.k hInv.kpos
      · rw [if_neg hz]
        show Inv N _
        refine inv_set_k hInv _ ?_
        intro e he
        rcases List.mem_append.mp he with he1 | he2
        · exact hInv.kpos e he1
        · rw [List.mem_singleton.mp he2]
          omega
    · rw [if_neg ht]
      by_cases hz : (check_walks N st.grid st.i st.j).1.length = 0
      · rw [if_pos hz]
        show Inv N _
        rw [List.dropLast_concat]
        exact inv_set_k hInv st.k hInv.kpos
      · rw [if_neg hz]
        rcases hw : ((chooseStep sel c (check_walks N st.grid st.i st.j).1).1.bind
            (walkFn N st.grid st.i st.j)) with _ | gij
        · exact trivial
        · exact ih _ (tc + 1) _ (bind_walk_some hInv hw)

theorem loopSAWEarly_no_fuelOut (N : ℕ) (p : ℚ) (term : ℕ → ℚ)
    (sel : ℕ → ℕ) (fuel : ℕ) :
    ∀ (c tc : ℕ) (st : EvoState), Inv N st →
      N * N + 1 ≤ fuel + st.n_steps →
      loopSAWEarly N p term sel fuel c tc st ≠ .fuelOut := by
  induction fuel with
  | zero =>
    intro c tc st hInv hf
    have := hInv.steps_bound
    omega
  | succ fuel ih =>
    intro c tc st hInv hf
    simp only [loopSAWEarly]
    by_cases ht : term tc < p
    · rw [if_pos ht]
      by_cases hz : (check_walks N st.grid st.i st.j).1.length = 0
      · rw [if_pos hz]
        intro h
        exact RunResult.noConfusion h
      · rw [if_neg hz]
        intro h
        exact RunResult.noConfusion h
    · rw [if_neg ht]
      by_cases hz : (check_walks N st.grid st.i st.j).1.length = 0
      · rw [if_pos hz]
        intro h
        exact RunResult.noConfusion h
      · rw [if_neg hz]
        rcases hw : ((chooseStep sel c (check_walks N st.grid st.i st.j).1).1.bind
            (walkFn N st.grid st.i st.j)) with _ | gij
        · intro h
          exact RunResult.noConfusion h
        · exact ih _ (tc + 1) _ (bind_walk_some hInv hw) (by simp only []; omega)

/-- The state of a freshly constructed walk object, before any step. -/
def startState (x0 y0 : ℤ) : EvoState :=
  { grid := zeroGrid, x := [x0], y := [y0], k := [], n_steps := 0,
    i := x0, j := y0 }

theorem startState_inv (N : ℕ) (x0 y0 : ℤ)
    (hx : 0 ≤ x0 ∧ x0 < (N : ℤ)) (hy : 0 ≤ y0 ∧ y0 < (N : ℤ)) :
    Inv N (startState x0 y0) := by
  refine ⟨rfl, rfl, rfl, ?_, ?_, ?_, ?_, ?_⟩
  · intro q hq
    simp only [startState, posList, List.zip_cons_cons, List.zip_nil_right,
      List.mem_singleton] at hq
    rw [hq]
    exact ⟨hx.1, hx.2, hy.1, hy.2⟩
  · simp [startState, posList]
  · intro a b
    simp [startState, posList, zeroGrid]
  · simp [startState, posList]
  · intro e he
    cases he

/-- Master theorem for the base variant: from an in-bounds start the run
satisfies the invariant whenever it finishes, and fuel N * N rules out
fuel exhaustion. -/
theorem SAW_evolution_master (N : ℕ) (x0 y0 : ℤ) (sel : ℕ → ℕ) (fuel : ℕ)
    (hx : 0 ≤ x0 ∧ x0 < (N : ℤ)) (hy : 0 ≤ y0 ∧ y0 < (N : ℤ)) :
    goodRun (Inv N) (SAW_evolution N x0 y0 sel fuel) ∧
      (N * N ≤ fuel → SAW_evolution N x0 y0 sel fuel ≠ .fuelOut) := by
  have h0 : Inv N (startState x0 y0) := startState_inv N x0 y0 hx hy
  simp only [SAW_evolution]
  rcases hw : ((chooseStep sel 0 (check_walks N zeroGrid x0 y0).1).1.bind
      (walkFn N zeroGrid x0 y0)) with _ | gij
  · exact ⟨trivial, fun _ h => RunResult.noConfusion h⟩
  · have hInv1 := bind_walk_some h0 hw
    constructor
    · exact loopSAW_inv N sel fuel _ _ hInv1
    · intro hf
      refine loopSAW_no_fuelOut N sel fuel _ _ hInv1 ?_
      show N * N + 1 ≤ fuel + 1
      omega

/-- Master theorem for the early-termination variant, with the same
conclusions as for the base variant. -/
theorem SAWEarly_evolution_master (N : ℕ) (x0 y0 : ℤ) (p : ℚ)
    (term : ℕ → ℚ) (sel : ℕ → ℕ) (fuel : ℕ)
    (hx : 0 ≤ x0 ∧ x0 < (N : ℤ)) (hy : 0 ≤ y0 ∧ y0 < (N : ℤ)) :
    goodRun (Inv N) (SAWEarly_evolution N x0 y0 p term sel fuel) ∧
      (N * N ≤ fuel → SAWEarly_evolution N x0 y0 p term sel fuel ≠ .fuelOut) := by
  have h0 : Inv N (startState x0 y0) := startState_inv N x0 y0 hx hy
  simp only [SAWEarly_evolution]
  rcases hw : ((chooseStep sel 0 (check_walks N zeroGrid x0 y0).1).1.bind
      (walkFn N zeroGrid x0 y0)) with _ | gij
  · exact ⟨trivial, fun _ h => RunResult.noConfusion h⟩
  · have hInv1 := bind_walk_some h0 hw
    by_cases hc : term 0 < p
    · simp only [hc, if_true]
      exact ⟨hInv1, fun _ h => RunResult.noConfusion h⟩
    · simp only [hc, if_false]
      constructor
      · exact loopSAWEarly_inv N p term sel fuel _ 1 _ hInv1
      · intro hf
        refine loopSAWEarly_no_fuelOut N p term sel fuel _ 1 _ hInv1 ?_
        show N * N + 1 ≤ fuel + 1
        omega

theorem goodRun_mono {P Q : EvoState → Prop} (h : ∀ st, P st → Q st) :
    ∀ r, goodRun P r → goodRun Q r
  | .done st, hp => h st hp
  | .fuelOut, _ => trivial
  | .crash, _ => trivial

/-! ## The claims -/

/-- C5: for every lattice state and current position, move enumeration
returns exactly the directions among left(1), right(2), up(3), down(4),
in that fixed order, whose one-step target has both coordinates in
[0, N) and an unvisited cell; negative and too-large target indices are
rejected uniformly as out of bounds, and the negative-index wraparound
read never lets an illegal direction through. -/
theorem claim5_check_walks (N : ℕ) (g : Grid) (i j : ℤ) :
    check_walks N g i j = check_walks_spec N g i j :=
  check_walks_eq_spec N g i j

/-- C3: constructing a base-variant walk on the 1 by 1 lattice does not
terminate normally with step count 0 as the spec asserts: the first move
enumeration does find zero legal moves, but the unguarded first step then
calls `_choose_uniformly` on the empty list, which raises an IndexError,
so the construction crashes for every selection stream and any fuel. -/
theorem claim3_one_by_one_crashes (sel : ℕ → ℕ) (fuel : ℕ) :
    check_walks 1 zeroGrid 0 0 = ([], []) ∧
    SAW_evolution 1 0 0 sel fuel = .crash := by
  exact ⟨rfl, rfl⟩

/-- C1: for every in-bounds configuration, a completed walk of either
variant never revisits a lattice cell: the trajectory positions are
pairwise distinct, so the set of visited positions has cardinality equal
to the trajectory length. -/
theorem claim1_no_revisit (N : ℕ) (x0 y0 : ℤ) (sel : ℕ → ℕ) (fuel : ℕ)
    (p : ℚ) (term : ℕ → ℚ)
    (hx : 0 ≤ x0 ∧ x0 < (N : ℤ)) (hy : 0 ≤ y0 ∧ y0 < (N : ℤ)) :
    goodRun (fun st => (posList st).Nodup ∧
        (posList st).toFinset.card = (posList st).length)
      (SAW_evolution N x0 y0 sel fuel) ∧
    goodRun (fun st => (posList st).Nodup ∧
        (posList st).toFinset.card = (posList st).length)
      (SAWEarly_evolution N x0 y0 p term sel fuel) := by
  have hmono : ∀ st, Inv N st → (posList st).Nodup ∧
      (posList st).toFinset.card = (posList st).length := by
    intro st hInv
    exact ⟨hInv.nodup, List.toFinset_card_of_nodup hInv.nodup⟩
  exact ⟨goodRun_mono hmono _ (SAW_evolution_master N x0 y0 sel fuel hx hy).1,
    goodRun_mono hmono _ (SAWEarly_evolution_master N x0 y0 p term sel fuel hx hy).1⟩

/-- Witness for C1 at N = 2 from the origin with the all-zeros selection
stream; the base run completes with trajectory (0,0) (0,1) (1,1) (1,0). -/
theorem claim1_no_revisit_witness :
    (SAW_evolution 2 0 0 (fun _ => 0) 5).out?
        = some ⟨[0, 0, 1, 1], [0, 1, 1, 0], [2, 1, 1], 3⟩ ∧
    (goodRun (fun st => (posList st).Nodup ∧
        (posList st).toFinset.card = (posList st).length)
      (SAW_evolution 2 0 0 (fun _ => 0) 5) ∧
    goodRun (fun st => (posList st).Nodup ∧
        (posList st).toFinset.card = (posList st).length)
      (SAWEarly_evolution 2 0 0 (1 / 2) (fun _ => 1) (fun _ => 0) 5)) :=
  ⟨rfl, claim1_no_revisit 2 0 0 (fun _ => 0) 5 (1 / 2) (fun _ => 1)
    (by norm_num) (by norm_num)⟩

/-- C6: for every lattice size N ≥ 1 and in-bounds start, the evolution
loop of either variant always terminates once given fuel N * N (no fuel
exhaustion), and a completed walk has at most N * N accepted steps,
because each accepted step marks a previously unvisited cell. -/
theorem claim6_termination (N : ℕ) (x0 y0 : ℤ) (sel : ℕ → ℕ) (fuel : ℕ)
    (p : ℚ) (term : ℕ → ℚ) (hN : 1 ≤ N)
    (hx : 0 ≤ x0 ∧ x0 < (N : ℤ)) (hy : 0 ≤ y0 ∧ y0 < (N : ℤ))
    (hfuel : N * N ≤ fuel) :
    (SAW_evolution N x0 y0 sel fuel ≠ .fuelOut ∧
      goodRun (fun st => st.n_steps ≤ N * N)
        (SAW_evolution N x0 y0 sel fuel)) ∧
    (SAWEarly_evolution N x0 y0 p term sel fuel ≠ .fuelOut ∧
      goodRun (fun st => st.n_steps ≤ N * N)
        (SAWEarly_evolution N x0 y0 p term sel fuel)) := by
  have hmono : ∀ st, Inv N st → st.n_steps ≤ N * N := by
    intro st hInv
    have := hInv.steps_bound
    omega
  obtain ⟨hg1, hf1⟩ := SAW_evolution_master N x0 y0 sel fuel hx hy
  obtain ⟨hg2, hf2⟩ := SAWEarly_evolution_master N x0 y0 p term sel fuel hx hy
  exact ⟨⟨hf1 hfuel, goodRun_mono hmono _ hg1⟩,
    ⟨hf2 hfuel, goodRun_mono hmono _ hg2⟩⟩

/-- Witness for C6 at N = 2 with fuel 4 = N * N. -/
theorem claim6_termination_witness :
    (SAW_evolution 2 0 0 (fun _ => 0) 4 ≠ .fuelOut ∧
      goodRun (fun st => st.n_steps ≤ 2 * 2)
        (SAW_evolution 2 0 0 (fun _ => 0) 4)) ∧
    (SAWEarly_evolution 2 0 0 (1 / 2) (fun _ => 1) (fun _ => 0) 4 ≠ .fuelOut ∧
      goodRun (fun st => st.n_steps ≤ 2 * 2)
        (SAWEarly_evolution 2 0 0 (1 / 2) (fun _ => 1) (fun _ => 0) 4)) :=
  claim6_termination 2 0 0 (fun _ => 0) 4 (1 / 2) (fun _ => 1)
    (by norm_num) (by norm_num) (by norm_num) (by norm_num)

/-- C8: the final branching-factor log of a completed walk of either
variant contains no zero entry (in particular, never a trailing zero):
any entry logged for an attempt that found zero directions is popped
before the walk finishes. -/
theorem claim8_no_zero_log (N : ℕ) (x0 y0 : ℤ) (sel : ℕ → ℕ) (fuel : ℕ)
    (p : ℚ) (term : ℕ → ℚ)
    (hx : 0 ≤ x0 ∧ x0 < (N : ℤ)) (hy : 0 ≤ y0 ∧ y0 < (N : ℤ)) :
    goodRun (fun st => ∀ e ∈ st.k, e ≠ 0)
      (SAW_evolution N x0 y0 sel fuel) ∧
    goodRun (fun st => ∀ e ∈ st.k, e ≠ 0)
      (SAWEarly_evolution N x0 y0 p term sel fuel) := by
  have hmono : ∀ st, Inv N st → ∀ e ∈ st.k, e ≠ 0 := by
    intro st hInv e he
    have := hInv.kpos e he
    omega
  exact ⟨goodRun_mono hmono _ (SAW_evolution_master N x0 y0 sel fuel hx hy).1,
    goodRun_mono hmono _ (SAWEarly_evolution_master N x0 y0 p term sel fuel hx hy).1⟩

/-- Witness for C8 at N = 2: the base run finishes with log [2, 1, 1]. -/
theorem claim8_no_zero_log_witness :
    (SAW_evolution 2 0 0 (fun _ => 0) 5).out?
        = some ⟨[0, 0, 1, 1], [0, 1, 1, 0], [2, 1, 1], 3⟩ ∧
    (goodRun (fun st => ∀ e ∈ st.k, e ≠ 0)
      (SAW_evolution 2 0 0 (fun _ => 0) 5) ∧
    goodRun (fun st => ∀ e ∈ st.k, e ≠ 0)
      (SAWEarly_evolution 2 0 0 (1 / 2) (fun _ => 1) (fun _ => 0) 5)) :=
  ⟨rfl, claim8_no_zero_log 2 0 0 (fun _ => 0) 5 (1 / 2) (fun _ => 1)
    (by norm_num) (by norm_num)⟩

/-- C10: after a completed walk of either variant, the nonzero cells of
the lattice are exactly the trajectory positions without the last one,
each consecutive pair of trajectory positions r, s has the cell at r
holding the direction code by which the walker departed r toward s, and
the cell at the final position still holds 0. -/
theorem claim10_grid_marks (N : ℕ) (x0 y0 : ℤ) (sel : ℕ → ℕ) (fuel : ℕ)
    (p : ℚ) (term : ℕ → ℚ)
    (hx : 0 ≤ x0 ∧ x0 < (N : ℤ)) (hy : 0 ≤ y0 ∧ y0 < (N : ℤ)) :
    goodRun (fun st =>
        (∀ a b, st.grid a b ≠ 0 ↔ (a, b) ∈ (posList st).dropLast) ∧
        (posList st).getLast? = some (st.i, st.j) ∧
        st.grid st.i st.j = 0 ∧
        (posList st).Chain' (stepRel st.grid))
      (SAW_evolution N x0 y0 sel fuel) ∧
    goodRun (fun st =>
        (∀ a b, st.grid a b ≠ 0 ↔ (a, b) ∈ (posList st).dropLast) ∧
        (posList st).getLast? = some (st.i, st.j) ∧
        st.grid st.i st.j = 0 ∧
        (posList st).Chain' (stepRel st.grid))
      (SAWEarly_evolution N x0 y0 p term sel fuel) := by
  have hmono : ∀ st, Inv N st →
      (∀ a b, st.grid a b ≠ 0 ↔ (a, b) ∈ (posList st).dropLast) ∧
      (posList st).getLast? = some (st.i, st.j) ∧
      st.grid st.i st.j = 0 ∧
      (posList st).Chain' (stepRel st.grid) := by
    intro st hInv
    exact ⟨hInv.gridSpec, hInv.cur, hInv.cur_cell_zero, hInv.chain⟩
  exact ⟨goodRun_mono hmono _ (SAW_evolution_master N x0 y0 sel fuel hx hy).1,
    goodRun_mono hmono _ (SAWEarly_evolution_master N x0 y0 p term sel fuel hx hy).1⟩

/-- Witness for C10 at N = 2: the completed base run leaves direction
marks 2, 4, 1 on the first three cells and 0 on the final cell. -/
theorem claim10_grid_marks_witness :
    (SAW_evolution 2 0 0 (fun _ => 0) 5).gridAt? 0 0 = some 2 ∧
    (SAW_evolution 2 0 0 (fun _ => 0) 5).gridAt? 0 1 = some 4 ∧
    (SAW_evolution 2 0 0 (fun _ => 0) 5).gridAt? 1 1 = some 1 ∧
    (SAW_evolution 2 0 0 (fun _ => 0) 5).gridAt? 1 0 = some 0 ∧
    (goodRun (fun st =>
        (∀ a b, st.grid a b ≠ 0 ↔ (a, b) ∈ (posList st).dropLast) ∧
        (posList st).getLast? = some (st.i, st.j) ∧
        st.grid st.i st.j = 0 ∧
        (posList st).Chain' (stepRel st.grid))
      (SAW_evolution 2 0 0 (fun _ => 0) 5) ∧
    goodRun (fun st =>
        (∀ a b, st.grid a b ≠ 0 ↔ (a, b) ∈ (posList st).dropLast) ∧
        (posList st).getLast? = some (st.i, st.j) ∧
        st.grid st.i st.j = 0 ∧
        (posList st).Chain' (stepRel st.grid))
      (SAWEarly_evolution 2 0 0 (1 / 2) (fun _ => 1) (fun _ => 0) 5)) :=
  ⟨rfl, rfl, rfl, rfl, claim10_grid_marks 2 0 0 (fun _ => 0) 5 (1 / 2)
    (fun _ => 1) (by norm_num) (by norm_num)⟩

/-- C9 counterexample: on the 2 by 2 lattice with the all-zeros selection
stream the base walk enters cell (0, 1) from (0, 0) by direction right
(code 2), yet the final lattice holds 4 there (the code of the departing
move), and the visited final cell (1, 0) holds 0, so visited cells are
not tagged with the direction used to enter them. -/
theorem claim9_counterexample :
    (SAW_evolution 2 0 0 (fun _ => 0) 5).out?
        = some ⟨[0, 0, 1, 1], [0, 1, 1, 0], [2, 1, 1], 3⟩ ∧
    applyDir 2 ((0 : ℤ), (0 : ℤ)) = (0, 1) ∧
    (SAW_evolution 2 0 0 (fun _ => 0) 5).gridAt? 0 1 = some 4 ∧
    (4 : ℕ) ≠ 2 ∧
    (SAW_evolution 2 0 0 (fun _ => 0) 5).gridAt? 1 0 = some 0 ∧
    (0 : ℕ) ≠ 2 :=
  ⟨rfl, rfl, rfl, by decide, rfl, by decide⟩

/-- C9 amended: each cell the walker departs from is tagged exactly once,
at departure, with the direction code of the departing move (consecutive
trajectory positions r, s satisfy s = applyDir d r and grid r = d for a
code d in 1..4), while the cell at the final trajectory position, though
visited, is never tagged and still holds 0. -/
theorem claim9_amended (N : ℕ) (x0 y0 : ℤ) (sel : ℕ → ℕ) (fuel : ℕ)
    (p : ℚ) (term : ℕ → ℚ)
    (hx : 0 ≤ x0 ∧ x0 < (N : ℤ)) (hy : 0 ≤ y0 ∧ y0 < (N : ℤ)) :
    goodRun (fun st => (posList st).Chain' (stepRel st.grid) ∧
        (posList st).getLast? = some (st.i, st.j) ∧
        st.grid st.i st.j = 0)
      (SAW_evolution N x0 y0 sel fuel) ∧
    goodRun (fun st => (posList st).Chain' (stepRel st.grid) ∧
        (posList st).getLast? = some (st.i, st.j) ∧
        st.grid st.i st.j = 0)
      (SAWEarly_evolution N x0 y0 p term sel fuel) := by
  have hmono : ∀ st, Inv N st → (posList st).Chain' (stepRel st.grid) ∧
      (posList st).getLast? = some (st.i, st.j) ∧
      st.grid st.i st.j = 0 := by
    intro st hInv
    exact ⟨hInv.chain, hInv.cur, hInv.cur_cell_zero⟩
  exact ⟨goodRun_mono hmono _ (SAW_evolution_master N x0 y0 sel fuel hx hy).1,
    goodRun_mono hmono _ (SAWEarly_evolution_master N x0 y0 p term sel fuel hx hy).1⟩

/-- Witness for the amended C9 at N = 2. -/
theorem claim9_amended_witness :
    (SAW_evolution 2 0 0 (fun _ => 0) 5).gridAt? 1 0 = some 0 ∧
    (goodRun (fun st => (posList st).Chain' (stepRel st.grid) ∧
        (posList st).getLast? = some (st.i, st.j) ∧
        st.grid st.i st.j = 0)
      (SAW_evolution 2 0 0 (fun _ => 0) 5) ∧
    goodRun (fun st => (posList st).Chain' (stepRel st.grid) ∧
        (posList st).getLast? = some (st.i, st.j) ∧
        st.grid st.i st.j = 0)
      (SAWEarly_evolution 2 0 0 (1 / 2) (fun _ => 1) (fun _ => 0) 5)) :=
  ⟨rfl, claim9_amended 2 0 0 (fun _ => 0) 5 (1 / 2) (fun _ => 1)
    (by norm_num) (by norm_num)⟩

/-! ## Trial probability -/

theorem scanl_ne_nil (f : ℚ → ℚ → ℚ) (b : ℚ) (l : List ℚ) :
    l.scanl f b ≠ [] := by
  cases l with
  | nil => simp [List.scanl_nil]
  | cons a l => simp [List.scanl_cons]

theorem scanl_mul_getLast? (l : List ℚ) (b : ℚ) :
    (l.scanl (· * ·) b).getLast? = some (l.foldl (· * ·) b) := by
  induction l generalizing b with
  | nil => rfl
  | cons a l ih =>
    have h1 : ((a :: l).scanl (· * ·) b) = b :: l.scanl (· * ·) (b * a) := by
      simp [List.scanl_cons]
    have h2 : ((a :: l).foldl (· * ·) b) = l.foldl (· * ·) (b * a) := by
      simp [List.foldl_cons]
    rw [h1, h2]
    cases hs : l.scanl (· * ·) (b * a) with
    | nil => exact absurd hs (scanl_ne_nil _ _ _)
    | cons c L =>
      rw [List.getLast?_cons_cons, ← hs]
      exact ih (b * a)

theorem foldl_mul_eq_prod (l : List ℚ) (b : ℚ) :
    l.foldl (· * ·) b = b * l.prod := by
  induction l generalizing b with
  | nil => simp
  | cons a l ih =>
    rw [List.foldl_cons, List.prod_cons, ih (b * a), mul_assoc]

theorem cumprod_getLast? (l : List ℚ) (h : l ≠ []) :
    (cumprod l).getLast? = some (l.foldl (· * ·) 1) := by
  unfold cumprod
  cases l with
  | nil => exact absurd rfl h
  | cons a l =>
    rw [List.scanl_cons, List.singleton_append, List.tail_cons, List.foldl_cons]
    exact scanl_mul_getLast? l (1 * a)

/-- C4: for every non-empty branching-factor log, `trial_probability`
returns exactly the product over the log of the reciprocals 1/k, and in
particular on the log [3, 2, 1] it returns 1/6. -/
theorem claim4_trial_probability (k : List ℕ) (h : k ≠ []) :
    trial_probability k = some ((k.map fun n : ℕ => 1 / (n : ℚ)).prod) ∧
    trial_probability [3, 2, 1] = some (1 / 6) := by
  have hgen : ∀ (l : List ℕ), l ≠ [] →
      trial_probability l = some ((l.map fun n : ℕ => 1 / (n : ℚ)).prod) := by
    intro l hl
    have hmap : (l.map fun n : ℕ => 1 / (n : ℚ)) ≠ [] := by
      intro hme
      exact hl (List.map_eq_nil_iff.mp hme)
    unfold trial_probability
    rw [cumprod_getLast? _ hmap, foldl_mul_eq_prod, one_mul]
  refine ⟨hgen k h, ?_⟩
  rw [hgen [3, 2, 1] (by simp)]
  norm_num [List.map_cons, List.map_nil, List.prod_cons, List.prod_nil]

/-- Witness for C4 at the log [3, 2, 1]. -/
theorem claim4_trial_probability_witness :
    ([3, 2, 1] : List ℕ) ≠ [] ∧
    trial_probability [3, 2, 1]
      = some (([3, 2, 1].map fun n : ℕ => 1 / (n : ℚ)).prod) :=
  ⟨by decide, (claim4_trial_probability [3, 2, 1] (by decide)).1⟩

/-! ## Probability-zero early termination -/

theorem loopSAWEarly_zero_eq (N : ℕ) (term : ℕ → ℚ) (sel : ℕ → ℕ)
    (hterm : ∀ t, 0 ≤ term t) (fuel : ℕ) :
    ∀ (c tc : ℕ) (st : EvoState),
      loopSAWEarly N 0 term sel fuel c tc st = loopSAW N sel fuel c st := by
  induction fuel with
  | zero =>
    intro c tc st
    rfl
  | succ fuel ih =>
    intro c tc st
    simp only [loopSAWEarly, loopSAW]
    have hnt : ¬ term tc < 0 := not_lt.mpr (hterm tc)
    rw [if_neg hnt]
    by_cases hz : (check_walks N st.grid st.i st.j).1.length = 0
    · simp only [if_pos hz]
    · simp only [if_neg hz]
      rcases hw : ((chooseStep sel c (check_walks N st.grid st.i st.j).1).1.bind
          (walkFn N st.grid st.i st.j)) with _ | gij
      · rfl
      · exact ih _ _ _

/-- C7: with terminate probability 0 the early-termination variant is
extensionally the base variant under the same selection stream: the
uniform draws, all nonnegative as numpy uniform() values are, never fire,
and the two runs return the same full outcome — same trajectory, same
branching-factor log, same step count, same termination condition. -/
theorem claim7_zero_prob_equiv (N : ℕ) (x0 y0 : ℤ) (term : ℕ → ℚ)
    (sel : ℕ → ℕ) (fuel : ℕ) (hterm : ∀ t, 0 ≤ term t) :
    SAWEarly_evolution N x0 y0 0 term sel fuel
      = SAW_evolution N x0 y0 sel fuel := by
  simp only [SAWEarly_evolution, SAW_evolution]
  have hnt : ¬ term 0 < 0 := not_lt.mpr (hterm 0)
  rcases hw : ((chooseStep sel 0 (check_walks N zeroGrid x0 y0).1).1.bind
      (walkFn N zeroGrid x0 y0)) with _ | gij
  · rfl
  · simp only [hnt, if_false]
    exact loopSAWEarly_zero_eq N term sel hterm fuel _ 1 _

/-- Witness for C7 at N = 2 with a constant uniform stream 1/2. -/
theorem claim7_zero_prob_equiv_witness :
    (∀ t : ℕ, (0 : ℚ) ≤ 1 / 2) ∧
    SAWEarly_evolution 2 0 0 0 (fun _ => 1 / 2) (fun _ => 0) 5
      = SAW_evolution 2 0 0 (fun _ => 0) 5 ∧
    (SAW_evolution 2 0 0 (fun _ => 0) 5).out?
      = some ⟨[0, 0, 1, 1], [0, 1, 1, 0], [2, 1, 1], 3⟩ :=
  ⟨fun _ => by norm_num,
    claim7_zero_prob_equiv 2 0 0 (fun _ => 1 / 2) (fun _ => 0) 5
      (fun _ => by norm_num), rfl⟩

/-! ## Early termination and the first step -/

/-- C2 counterexample: with terminate probability 1 on the 2 by 2 lattice
the first uniform draw fires (0 < 1) before any step, yet the first step
is still chosen and applied, so the constructed walk has step count 1 and
trajectory length 2 — not step count 0 and trajectory length 1. -/
theorem claim2_counterexample :
    (0 : ℚ) < 1 ∧
    (SAWEarly_evolution 2 0 0 1 (fun _ => 0) (fun _ => 0) 5).out?
      = some ⟨[0, 0], [0, 1], [2], 1⟩ ∧
    (1 : ℕ) ≠ 0 ∧ ([(0 : ℤ), 0].length ≠ 1) :=
  ⟨by norm_num, rfl, by decide, by decide⟩

/-- On a lattice of size at least 2 the first move enumeration from the
origin finds exactly right (2) and down (4). -/
theorem check_walks_start (N : ℕ) (hN : 2 ≤ N) :
    check_walks N zeroGrid 0 0 = ([2, 4], [(0, 1), (1, 0)]) := by
  have h0 : (0 : ℤ) < (N : ℤ) := by exact_mod_cast Nat.lt_of_lt_of_le Nat.zero_lt_two hN
  have h1 : (1 : ℤ) < (N : ℤ) := by exact_mod_cast Nat.lt_of_lt_of_le Nat.one_lt_two hN
  rw [check_walks_eq_spec]
  have e1 : ¬ legal N zeroGrid ((0 : ℤ), (-1 : ℤ)) := by
    intro hleg
    have := hleg.1.2.2.1
    norm_num at this
  have e2 : legal N zeroGrid ((0 : ℤ), (1 : ℤ)) :=
    ⟨⟨le_refl 0, h0, by norm_num, h1⟩, rfl⟩
  have e3 : ¬ legal N zeroGrid ((-1 : ℤ), (0 : ℤ)) := by
    intro hleg
    have := hleg.1.1
    norm_num at this
  have e4 : legal N zeroGrid ((1 : ℤ), (0 : ℤ)) :=
    ⟨⟨by norm_num, h1, le_refl 0, h0⟩, rfl⟩
  simp [check_walks_spec, dirTargets, List.filter, e1, e2, e3, e4]

/-- C2 amended: inside the while loop (every attempt after the first),
a firing termination draw applies no step — the lattice, the trajectory,
the step counter and the current position are unchanged, only the log
gains the observed branching factor (dropped again when it is zero).  On
the very first attempt, however, the draw is evaluated before the step
but the step is still applied, so for every N at least 2 a walk with
terminate probability 1 from the origin ends with step count 1 and
trajectory length 2, not 0 and 1. -/
theorem claim2_amended :
    (∀ (N : ℕ) (p : ℚ) (term : ℕ → ℚ) (sel : ℕ → ℕ) (fuel c tc : ℕ)
      (st : EvoState), term tc < p →
      ∃ kOut, loopSAWEarly N p term sel (fuel + 1) c tc st
          = .done { st with k := kOut } ∧
        (kOut = st.k ∨
          kOut = st.k ++ [(check_walks N st.grid st.i st.j).1.length])) ∧
    (∀ (N : ℕ) (term : ℕ → ℚ) (sel : ℕ → ℕ) (fuel : ℕ), 2 ≤ N →
      term 0 < 1 →
      goodRun (fun st => st.n_steps = 1 ∧ st.x.length = 2 ∧
          st.y.length = 2 ∧ st.k = [2])
        (SAWEarly_evolution N 0 0 1 term sel fuel) ∧
      SAWEarly_evolution N 0 0 1 term sel fuel ≠ .crash ∧
      SAWEarly_evolution N 0 0 1 term sel fuel ≠ .fuelOut) := by
  constructor
  · intro N p term sel fuel c tc st hfire
    simp only [loopSAWEarly]
    rw [if_pos hfire]
    by_cases hz : (check_walks N st.grid st.i st.j).1.length = 0
    · rw [if_pos hz]
      exact ⟨_, rfl, Or.inl List.dropLast_concat⟩
    · rw [if_neg hz]
      exact ⟨_, rfl, Or.inr rfl⟩
  · intro N term sel fuel hN hfire
    have hN0 : (0 : ℤ) < (N : ℤ) := by
      exact_mod_cast Nat.lt_of_lt_of_le Nat.zero_lt_two hN
    have hNz : ¬ (0 : ℤ) = (N : ℤ) := by omega
    have hsel : sel 0 % 2 = 0 ∨ sel 0 % 2 = 1 := by omega
    have hcs : (chooseStep sel 0 [2, 4]).1 = [2, 4].get? (sel 0 % 2) := by
      simp [chooseStep]
    have hchoose : (chooseStep sel 0 [2, 4]).1 = some 2 ∨
        (chooseStep sel 0 [2, 4]).1 = some 4 := by
      rcases hsel with h | h
      · left
        rw [hcs, h]
        rfl
      · right
        rw [hcs, h]
        rfl
    rcases hchoose with hc | hc
    · have hw : ((chooseStep sel 0 [2, 4]).1.bind (walkFn N zeroGrid 0 0))
          = some (setCell N zeroGrid 0 0 2, 0, 1) := by
        rw [hc]
        simp [walkFn, hNz]
      have hrun : SAWEarly_evolution N 0 0 1 term sel fuel
          = .done { grid := setCell N zeroGrid 0 0 2, x := [0, 0],
                    y := [0, 1], k := [2], n_steps := 1, i := 0, j := 1 } := by
        simp only [SAWEarly_evolution, check_walks_start N hN, hw, hfire,
          if_true, List.length_cons, List.length_nil]
      rw [hrun]
      exact ⟨⟨rfl, rfl, rfl, rfl⟩, fun h => RunResult.noConfusion h,
        fun h => RunResult.noConfusion h⟩
    · have hw : ((chooseStep sel 0 [2, 4]).1.bind (walkFn N zeroGrid 0 0))
          = some (setCell N zeroGrid 0 0 4, 1, 0) := by
        rw [hc]
        simp [walkFn, hNz]
      have hrun : SAWEarly_evolution N 0 0 1 term sel fuel
          = .done { grid := setCell N zeroGrid 0 0 4, x := [0, 1],
                    y := [0, 0], k := [2], n_steps := 1, i := 1, j := 0 } := by
        simp only [SAWEarly_evolution, check_walks_start N hN, hw, hfire,
          if_true, List.length_cons, List.length_nil]
      rw [hrun]
      exact ⟨⟨rfl, rfl, rfl, rfl⟩, fun h => RunResult.noConfusion h,
        fun h => RunResult.noConfusion h⟩

/-- Witness for the amended C2: the loop frame property at a concrete
fired draw from the fresh origin state, and the probability-one
first-step behavior at N = 2. -/
theorem claim2_amended_witness :
    (∃ kOut, loopSAWEarly 2 1 (fun _ => 0) (fun _ => 0) 3 0 0 (startState 0 0)
        = .done { startState 0 0 with k := kOut } ∧
      (kOut = (startState 0 0).k ∨
        kOut = (startState 0 0).k ++
          [(check_walks 2 (startState 0 0).grid (startState 0 0).i
              (startState 0 0).j).1.length])) ∧
    (goodRun (fun st => st.n_steps = 1 ∧ st.x.length = 2 ∧
        st.y.length = 2 ∧ st.k = [2])
      (SAWEarly_evolution 2 0 0 1 (fun _ => 0) (fun _ => 0) 3) ∧
    SAWEarly_evolution 2 0 0 1 (fun _ => 0) (fun _ => 0) 3 ≠ .crash ∧
    SAWEarly_evolution 2 0 0 1 (fun _ => 0) (fun _ => 0) 3 ≠ .fuelOut) :=
  ⟨claim2_amended.1 2 1 (fun _ => 0) (fun _ => 0) 2 0 0 (startState 0 0)
      (by norm_num),
    claim2_amended.2 2 (fun _ => 0) (fun _ => 0) 3 (by norm_num) (by norm_num)⟩

end SAWModel
